import Mathlib

/-!
Verification of the transform-and-partition pipeline of the
`owntracks_location_import` tool (`src/main.rs`).

The Rust program reads a location-history JSON export into a polars
DataFrame, normalizes coordinates and timestamps, filters rows, sorts by
second-precision timestamp, builds `LocationRecord` values, serializes each
one as an OwnTracks log line, and writes the lines grouped into one file
per UTC calendar month.

The development below is a shallow embedding of that pipeline:
* machine integers become `Int`/`Nat` (no overflow is reachable: all
  arithmetic stays far below 2^63 for the data domain, and the polars
  kernels used here are non-wrapping),
* `f64` coordinate values become `Rat` (the spec's §3 invariant
  `latitude == latitudeE7 / 10_000_000` is exact),
* nullable DataFrame columns become `Option`,
* the row-to-record conversion, whose `unwrap` calls can abort, becomes an
  `Option`-returning function, and the whole transform returns
  `Option (List LocationRecord)`,
* the file-writing loop of `main` becomes a fold over an explicit state
  (current file name, accumulated lines, list of performed writes).

Date arithmetic (`chrono`'s `DateTime::from_timestamp_nanos`, `year()`,
`month()`, and `%Y-%m-%dT%H:%M:%SZ` formatting) is modelled by the
standard civil-from-days algorithm over `Int` days since 1970-01-01,
which agrees with chrono's proleptic-Gregorian conversion; sample dates,
including the repository's own test vector, are checked by `decide` below.
-/

set_option maxRecDepth 16000

namespace OwnTracks

/-! ### Decimal rendering of integers (Rust `to_string`) -/

/-- The ASCII character of a decimal digit. -/
def digitChar (d : Nat) : Char := Char.ofNat (48 + d)

/-- Fuel-indexed digit expansion; the fuel only forces structural
recursion (any fuel above the argument yields the digits). -/
def natCharsAux : Nat → Nat → List Char
  | 0, _ => []
  | fuel + 1, n =>
    if n < 10 then [digitChar n] else natCharsAux fuel (n / 10) ++ [digitChar (n % 10)]

/-- Decimal digits of a natural number, most significant first
(the rendering Rust's `to_string` produces for unsigned values). -/
def natChars (n : Nat) : List Char := natCharsAux (n + 1) n

theorem natCharsAux_congr :
    ∀ (f1 f2 n : Nat), n < f1 → n < f2 → natCharsAux f1 n = natCharsAux f2 n := by
  intro f1
  induction f1 with
  | zero => intro f2 n h1 _; omega
  | succ f ih =>
    intro f2 n h1 h2
    cases f2 with
    | zero => omega
    | succ f2' =>
      show natCharsAux (f + 1) n = natCharsAux (f2' + 1) n
      unfold natCharsAux
      by_cases hn : n < 10
      · simp [hn]
      · simp only [hn, if_false]
        have hd : n / 10 < n := Nat.div_lt_self (by omega) (by omega)
        rw [ih f2' (n / 10) (by omega) (by omega)]

theorem natChars_unfold (n : Nat) :
    natChars n = if n < 10 then [digitChar n] else natChars (n / 10) ++ [digitChar (n % 10)] := by
  show natCharsAux (n + 1) n = _
  unfold natCharsAux
  by_cases hn : n < 10
  · simp [hn]
  · simp only [hn, if_false]
    have hd : n / 10 < n := Nat.div_lt_self (by omega) (by omega)
    rw [natCharsAux_congr n (n / 10 + 1) (n / 10) (by omega) (by omega)]
    rfl

/-- Decimal rendering of a natural number. -/
def natStr (n : Nat) : String := String.mk (natChars n)

/-- Decimal rendering of a signed integer (Rust `i32::to_string` /
`i64::to_string`): a `-` sign followed by the digits of the magnitude. -/
def intStr (i : Int) : String :=
  if i < 0 then String.mk ('-' :: natChars (-i).toNat) else natStr i.toNat

theorem digitChar_toNat (d : Nat) (h : d < 10) : (digitChar d).toNat = 48 + d := by
  interval_cases d <;> rfl

theorem natChars_digits (n : Nat) :
    ∀ c ∈ natChars n, 48 ≤ c.toNat ∧ c.toNat < 58 := by
  induction n using Nat.strong_induction_on with
  | _ n ih =>
    rw [natChars_unfold]
    split
    · intro c hc
      simp only [List.mem_singleton] at hc
      subst hc
      rw [digitChar_toNat _ (by omega)]
      omega
    · intro c hc
      rcases List.mem_append.mp hc with h1 | h2
      · exact ih (n / 10) (Nat.div_lt_self (by omega) (by omega)) c h1
      · simp only [List.mem_singleton] at h2
        subst h2
        rw [digitChar_toNat _ (Nat.mod_lt _ (by omega))]
        have := Nat.mod_lt n (y := 10) (by omega)
        omega

theorem natChars_ne_nil (n : Nat) : natChars n ≠ [] := by
  rw [natChars_unfold]
  split <;> simp

/-- Value of a digit list, most significant first. -/
def digitsVal (l : List Char) : Nat :=
  l.foldl (fun a c => 10 * a + (c.toNat - 48)) 0

theorem digitsVal_append_digit (l : List Char) (c : Char) :
    digitsVal (l ++ [c]) = 10 * digitsVal l + (c.toNat - 48) := by
  simp [digitsVal, List.foldl_append]

theorem digitsVal_natChars (n : Nat) : digitsVal (natChars n) = n := by
  induction n using Nat.strong_induction_on with
  | _ n ih =>
    rw [natChars_unfold]
    split
    · simp [digitsVal, digitChar_toNat n (by omega)]
    · rw [digitsVal_append_digit, ih (n / 10) (Nat.div_lt_self (by omega) (by omega)),
        digitChar_toNat _ (Nat.mod_lt _ (by omega))]
      omega

theorem natChars_injective : Function.Injective natChars := by
  intro a b h
  have := digitsVal_natChars a
  rw [h, digitsVal_natChars] at this
  omega

theorem natStr_injective : Function.Injective natStr := by
  intro a b h
  have hd : natChars a = natChars b := congrArg String.data h
  exact natChars_injective hd

theorem intStr_injective : Function.Injective intStr := by
  intro i j h
  unfold intStr at h
  split at h <;> split at h
  · have hd : '-' :: natChars (-i).toNat = '-' :: natChars (-j).toNat :=
      congrArg String.data h
    have := natChars_injective (List.cons_injective hd)
    omega
  · have hd : '-' :: natChars (-i).toNat = natChars j.toNat :=
      congrArg String.data h
    have : '-' ∈ natChars j.toNat := by rw [← hd]; exact List.mem_cons_self _ _
    exact absurd (natChars_digits j.toNat '-' this) (by decide)
  · have hd : natChars i.toNat = '-' :: natChars (-j).toNat :=
      congrArg String.data h
    have : '-' ∈ natChars i.toNat := by rw [hd]; exact List.mem_cons_self _ _
    exact absurd (natChars_digits i.toNat '-' this) (by decide)
  · have hd : natChars i.toNat = natChars j.toNat := congrArg String.data h
    have := natChars_injective hd
    omega

/-- Splitting a list at an occurrence of a separator that does not occur to
its right is unambiguous. -/
theorem sep_split {α : Type} [DecidableEq α] {c : α} :
    ∀ (a a' b b' : List α), c ∉ b → c ∉ b' →
      a ++ c :: b = a' ++ c :: b' → a = a' ∧ b = b' := by
  intro a
  induction a with
  | nil =>
    intro a' b b' hb hb' h
    cases a' with
    | nil => simpa using h
    | cons x t =>
      simp only [List.nil_append, List.cons_append, List.cons.injEq] at h
      exfalso
      apply hb
      rw [h.2]
      exact List.mem_append_right t (List.mem_cons_self _ _)
  | cons x t ih =>
    intro a' b b' hb hb' h
    cases a' with
    | nil =>
      simp only [List.cons_append, List.nil_append, List.cons.injEq] at h
      exfalso
      apply hb'
      rw [← h.2]
      exact List.mem_append_right t (List.mem_cons_self _ _)
    | cons y t' =>
      simp only [List.cons_append, List.cons.injEq] at h
      obtain ⟨h1, h2⟩ := ih t' b b' hb hb' h.2
      exact ⟨by rw [h.1, h1], h2⟩

/-! ### Civil (proleptic Gregorian) calendar, modelling chrono

`chrono`'s `DateTime::from_timestamp_nanos` splits a nanosecond timestamp
into days since 1970-01-01 and seconds of day using Euclidean division;
`year()`/`month()`/`day()` then follow the proleptic Gregorian calendar.
We model the date conversion with the standard civil-from-days algorithm
(eras of 146097 days = 400 years, starting March 1 of years divisible by
400), which is extensionally equal to chrono's conversion. -/

/-- Helper of the year-of-era computation: day-of-era adjusted for leap
days within the era. -/
def hOf (doe : Nat) : Nat := doe - doe / 1460 + doe / 36524 - doe / 146096

/-- Year of era (0..399) of a day of era (0..146096). -/
def yoeOf (doe : Nat) : Nat := hOf doe / 365

/-- First day of a year of era, as a day of era. -/
def yearOff (yoe : Nat) : Nat := 365 * yoe + yoe / 4 - yoe / 100

/-- Day of year (0-based, year starting March 1). -/
def doyOf (doe : Nat) : Nat := doe - yearOff (yoeOf doe)

/-- Shifted month (0 = March .. 11 = February). -/
def mpOf (doe : Nat) : Nat := (5 * doyOf doe + 2) / 153

/-- Civil month (1..12) of a day of era. -/
def monthOfDoe (doe : Nat) : Nat :=
  if mpOf doe < 10 then mpOf doe + 3 else mpOf doe - 9

/-- Civil day of month (1..31) of a day of era. -/
def dayOfDoe (doe : Nat) : Nat := doyOf doe - (153 * mpOf doe + 2) / 5 + 1

/-- Year, month, day from a count of days since 1970-01-01 (UTC). -/
def civilFromDays (z : Int) : Int × Nat × Nat :=
  let era : Int := (z + 719468) / 146097
  let doe : Nat := ((z + 719468) % 146097).toNat
  let m := monthOfDoe doe
  let y : Int := 400 * era + yoeOf doe + (if m ≤ 2 then 1 else 0)
  (y, m, dayOfDoe doe)

/-- Seconds since epoch of a nanosecond timestamp
(`DateTime::from_timestamp_nanos` uses `div_euclid`). -/
def secsOfNanos (ns : Int) : Int := ns / 1000000000

/-- Days since epoch of a second timestamp. -/
def daysOfSecs (s : Int) : Int := s / 86400

/-- Seconds of day of a second timestamp. -/
def sodOfSecs (s : Int) : Nat := (s % 86400).toNat

/-- Calendar date of a nanosecond timestamp. -/
def civilOfNanos (ns : Int) : Int × Nat × Nat :=
  civilFromDays (daysOfSecs (secsOfNanos ns))

example : civilFromDays 0 = (1970, 1, 1) := by decide
example : civilFromDays (-1) = (1969, 12, 31) := by decide
example : civilFromDays 16446 = (2015, 1, 11) := by decide
example : civilFromDays 10957 = (2000, 1, 1) := by decide
example : civilFromDays 11016 = (2000, 2, 29) := by decide
example : civilFromDays (-719468) = (0, 3, 1) := by decide
example : civilFromDays (-719469) = (0, 2, 29) := by decide
example : civilFromDays 19722 = (2023, 12, 31) := by decide
example : civilFromDays 19723 = (2024, 1, 1) := by decide

/-! ### Monotonicity of the calendar month

The bucket key of the partitioned writer is the (year, month) pair. To
show that a timestamp-sorted record stream visits bucket keys in
non-decreasing order we linearize (year, month) into a single month index
`12 * year + (month - 1)` and prove it monotone in the day count. -/

/-- Month index within an era, counted from the era start (March of year
0 of the era has index 2 = March of civil year 0). -/
def monthIdxDoe (doe : Nat) : Nat := 12 * yoeOf doe + mpOf doe + 2

/-- Linearized (year, month) of a day count: `12 * year + (month - 1)`. -/
def monthIdxDays (z : Int) : Int :=
  4800 * ((z + 719468) / 146097) + monthIdxDoe (((z + 719468) % 146097).toNat)

theorem yoe_step (doe : Nat) (h : doe ≤ 146095) :
    yoeOf doe ≤ yoeOf (doe + 1) ∧ yoeOf (doe + 1) ≤ yoeOf doe + 1 := by
  unfold yoeOf hOf
  omega

theorem doy_le (doe : Nat) (h : doe ≤ 146096) : doyOf doe ≤ 366 := by
  unfold doyOf yearOff yoeOf hOf
  omega

theorem mp_le (doe : Nat) (h : doe ≤ 146096) : mpOf doe ≤ 11 := by
  have := doy_le doe h
  unfold mpOf
  omega

theorem mp_mono_same (doe : Nat) (heq : yoeOf (doe + 1) = yoeOf doe) :
    mpOf doe ≤ mpOf (doe + 1) := by
  unfold mpOf doyOf
  rw [heq]
  omega

theorem monthIdxDoe_step (doe : Nat) (h : doe ≤ 146095) :
    monthIdxDoe doe ≤ monthIdxDoe (doe + 1) := by
  rcases yoe_step doe h with ⟨h1, h2⟩
  by_cases heq : yoeOf (doe + 1) = yoeOf doe
  · have := mp_mono_same doe heq
    unfold monthIdxDoe
    omega
  · have hj : yoeOf (doe + 1) = yoeOf doe + 1 := by omega
    have := mp_le doe (by omega)
    unfold monthIdxDoe
    omega

theorem monthIdxDoe_lo : monthIdxDoe 0 = 2 := by decide

theorem monthIdxDoe_hi : monthIdxDoe 146096 = 4801 := by decide

theorem monthIdxDays_step (z : Int) : monthIdxDays z ≤ monthIdxDays (z + 1) := by
  unfold monthIdxDays
  have hr0 : 0 ≤ (z + 719468) % 146097 := Int.emod_nonneg _ (by omega)
  have hr1 : (z + 719468) % 146097 < 146097 := Int.emod_lt_of_pos _ (by omega)
  by_cases hb : (z + 719468) % 146097 = 146096
  · have hq : (z + 1 + 719468) / 146097 = (z + 719468) / 146097 + 1 := by omega
    have hm : (z + 1 + 719468) % 146097 = 0 := by omega
    rw [hq, hm]
    have ht : ((z + 719468) % 146097).toNat = 146096 := by omega
    rw [ht]
    simp only [Int.toNat_zero, monthIdxDoe_lo, monthIdxDoe_hi]
    omega
  · have hq : (z + 1 + 719468) / 146097 = (z + 719468) / 146097 := by omega
    have hm : (z + 1 + 719468) % 146097 = (z + 719468) % 146097 + 1 := by omega
    rw [hq, hm]
    have ht : ((z + 719468) % 146097 + 1).toNat = ((z + 719468) % 146097).toNat + 1 := by
      omega
    rw [ht]
    have hstep := monthIdxDoe_step ((z + 719468) % 146097).toNat (by omega)
    omega

theorem monthIdxDays_mono {z z' : Int} (h : z ≤ z') :
    monthIdxDays z ≤ monthIdxDays z' := by
  have key : ∀ (n : Nat) (w : Int), monthIdxDays w ≤ monthIdxDays (w + n) := by
    intro n
    induction n with
    | zero => intro w; simp
    | succ k ih =>
      intro w
      have h1 := ih w
      have h2 := monthIdxDays_step (w + k)
      have he : w + (↑k + 1) = w + k + 1 := by omega
      push_cast
      rw [he]
      omega
  obtain ⟨n, hn⟩ : ∃ n : Nat, z' = z + n := ⟨(z' - z).toNat, by omega⟩
  rw [hn]
  exact key _ _

theorem monthOfDoe_range (doe : Nat) (h : doe ≤ 146096) :
    1 ≤ monthOfDoe doe ∧ monthOfDoe doe ≤ 12 := by
  have := mp_le doe h
  unfold monthOfDoe
  split <;> omega

/-- The civil (year, month) pair determines and is determined by the
linearized month index. -/
theorem civil_monthIdx (z : Int) :
    12 * (civilFromDays z).1 + ((civilFromDays z).2.1 : Int) - 1 = monthIdxDays z := by
  unfold civilFromDays monthIdxDays monthOfDoe
  have hdoe : ((z + 719468) % 146097).toNat ≤ 146096 := by
    have hr0 : 0 ≤ (z + 719468) % 146097 := Int.emod_nonneg _ (by omega)
    have hr1 : (z + 719468) % 146097 < 146097 := Int.emod_lt_of_pos _ (by omega)
    omega
  have hmp := mp_le _ hdoe
  simp only [monthIdxDoe]
  by_cases hc : mpOf (((z + 719468) % 146097).toNat) < 10
  · simp only [hc, if_true]
    have : ¬ (mpOf (((z + 719468) % 146097).toNat) + 3 ≤ 2) := by omega
    simp only [this, if_false]
    push_cast
    ring
  · simp only [hc, if_false]
    have : mpOf (((z + 719468) % 146097).toNat) - 9 ≤ 2 := by omega
    simp only [this, if_true]
    push_cast [Nat.cast_sub (by omega : 9 ≤ mpOf (((z + 719468) % 146097).toNat))]
    ring

theorem civilFromDays_month_range (z : Int) :
    1 ≤ (civilFromDays z).2.1 ∧ (civilFromDays z).2.1 ≤ 12 := by
  unfold civilFromDays
  apply monthOfDoe_range
  have hr0 : 0 ≤ (z + 719468) % 146097 := Int.emod_nonneg _ (by omega)
  have hr1 : (z + 719468) % 146097 < 146097 := Int.emod_lt_of_pos _ (by omega)
  omega

/-- Linearized month index of a nanosecond timestamp: the bucket key of
the partitioned writer, as an integer. -/
def bucketIdx (ns : Int) : Int := monthIdxDays (daysOfSecs (secsOfNanos ns))

theorem bucketIdx_mono {ns ns' : Int} (h : ns ≤ ns') : bucketIdx ns ≤ bucketIdx ns' := by
  unfold bucketIdx daysOfSecs secsOfNanos
  exact monthIdxDays_mono (Int.ediv_le_ediv (by omega) (Int.ediv_le_ediv (by omega) h))

theorem civilOfNanos_bucketIdx (ns : Int) :
    12 * (civilOfNanos ns).1 + ((civilOfNanos ns).2.1 : Int) - 1 = bucketIdx ns :=
  civil_monthIdx _

theorem civilOfNanos_month_range (ns : Int) :
    1 ≤ (civilOfNanos ns).2.1 ∧ (civilOfNanos ns).2.1 ≤ 12 :=
  civilFromDays_month_range _

/-- Equal bucket indices force equal (year, month) pairs. -/
theorem ym_eq_of_bucketIdx_eq {ns ns' : Int} (h : bucketIdx ns = bucketIdx ns') :
    (civilOfNanos ns).1 = (civilOfNanos ns').1 ∧
      (civilOfNanos ns).2.1 = (civilOfNanos ns').2.1 := by
  have e1 := civilOfNanos_bucketIdx ns
  have e2 := civilOfNanos_bucketIdx ns'
  have r1 := civilOfNanos_month_range ns
  have r2 := civilOfNanos_month_range ns'
  rw [h] at e1
  omega

/-! ### Data model of the pipeline

`RawFix` is one flattened row of the exploded `locations` array, with
every column nullable (polars columns are always nullable, and the JSON
source may omit or null any field — this is why the latitude validity
filter exists at all). The raw `timestamp` string column is represented
by its parsed value: the UTC instant in nanoseconds, or `none` when the
value is missing or does not parse (the lazy `cast` to
`Datetime(Nanoseconds, UTC)` is non-strict and yields null then). -/

structure RawFix where
  deviceTag : Option Int
  latitudeE7 : Option Int
  longitudeE7 : Option Int
  timestamp : Option Int
  accuracy : Option Int
  altitude : Option Int
  verticalAccuracy : Option Int
deriving DecidableEq

/-- One row of the frame produced by `with_columns` + `select` in
`transform`: columns `lat, long, acc, alt, vac, timestamp, tst,
deviceTag`, in that order. -/
structure TRow where
  lat : Option Rat
  long : Option Rat
  acc : Option Int
  alt : Option Int
  vac : Option Int
  timestamp : Option Int
  tst : Option Int
  deviceTag : Option Int
deriving DecidableEq

/-- The `with_columns` + `select` step of `transform`:
`lat = latitudeE7 as f64 / 10_000_000.0`, likewise `long`; `tst` is the
nanosecond timestamp cast to `Int64` and divided by `1_000_000_000`
(polars integer division truncates toward zero, like Rust `i64`
division, hence `Int.tdiv`); nulls propagate through every expression. -/
def normalize (r : RawFix) : TRow where
  lat := r.latitudeE7.map (fun v => (v : Rat) / 10000000)
  long := r.longitudeE7.map (fun v => (v : Rat) / 10000000)
  acc := r.accuracy
  alt := r.altitude
  vac := r.verticalAccuracy
  timestamp := r.timestamp
  tst := r.timestamp.map (fun n => n.tdiv 1000000000)
  deviceTag := r.deviceTag

/-- Result of `neq(lit(exclude_device)).or(is_null())` on one nullable
tag value: under polars' Kleene logic a null tag makes `neq` null, and
`null or true = true`, so null tags yield `true`. -/
def tagKeep (exclude_device : Int) : Option Int → Bool
  | none => true
  | some t => t ≠ exclude_device

/-- The first `filter` of `transform`:
`col("deviceTag").neq(lit(exclude_device)).or(col("deviceTag").is_null())`. -/
def exclKeep (exclude_device : Int) (row : TRow) : Bool :=
  tagKeep exclude_device row.deviceTag

/-- The second `filter` of `transform`: `col("lat").is_not_null()`. -/
def validKeep (row : TRow) : Bool := row.lat.isSome

/-- Ordering of nullable `Int64` keys: ascending, nulls first. -/
def optIntLe : Option Int → Option Int → Bool
  | none, _ => true
  | some _, none => false
  | some x, some y => x ≤ y

/-- Comparison used by `sort(["tst"], Default::default())`: ascending by
`tst`, nulls first (the default `nulls_last = false`). -/
def tstLe (a b : TRow) : Bool := optIntLe a.tst b.tst

/-- The output entity (`LocationRecord` in `main.rs`).
`record_type` serializes under the key `_type`; `timestamp_nanos` is
marked `skip_serializing` and only feeds the human-readable timestamp. -/
structure LocationRecord where
  record_type : String
  tid : String
  tst : Int
  timestamp_nanos : Int
  lat : Rat
  lon : Rat
  acc : Option Int
  alt : Option Int
  vac : Option Int
deriving DecidableEq

/-- The row-to-record mapping at the end of `transform`. Each of
`lat`, `lon`, `timestamp`, `tst` is read with `try_extract().unwrap()`,
which aborts on a null value — modelled as `none`. The three optional
fields are read with `try_into().unwrap()` into `Option<i64>`, which
maps null to `None` and never fails on these columns. -/
def buildRecord (tracker_id : String) (row : TRow) : Option LocationRecord :=
  row.lat.bind fun lat =>
    row.long.bind fun lon =>
      row.timestamp.bind fun ns =>
        row.tst.map fun t =>
          { record_type := "location", tid := tracker_id, tst := t,
            timestamp_nanos := ns, lat := lat, lon := lon,
            acc := row.acc, alt := row.alt, vac := row.vac }

/-- The rows surviving both filters of `transform`, in input order. -/
def keptRows (rows : List RawFix) (exclude_device : Int) : List TRow :=
  ((rows.map normalize).filter (exclKeep exclude_device)).filter validKeep

/-- Insertion of one row into a `tst`-sorted list. -/
def insertByTst (x : TRow) : List TRow → List TRow
  | [] => [x]
  | y :: t => if tstLe x y then x :: y :: t else y :: insertByTst x t

/-- The `sort(["tst"], Default::default())` step: a sort of the surviving
rows ascending by `tst` (nulls first). Which permutation is produced for
rows with equal keys is unspecified by polars' default (unstable) sort;
this insertion sort is one deterministic realization of it. -/
def sortByTst : List TRow → List TRow
  | [] => []
  | x :: t => insertByTst x (sortByTst t)

/-- The whole `transform` function: normalize, filter, sort by `tst`,
then map every row to a `LocationRecord`; `none` models the `unwrap`
panics in the row mapping. -/
def transform (rows : List RawFix) (tracker_id : String) (exclude_device : Int) :
    Option (List LocationRecord) :=
  (sortByTst (keptRows rows exclude_device)).mapM (buildRecord tracker_id)

/-! ### Serializer (`create_owntrack_line`) -/

/-- Lowercase hexadecimal digit. -/
def hexChar (d : Nat) : Char := if d < 10 then digitChar d else Char.ofNat (87 + d)

/-- JSON escaping of one character, as `serde_json` performs it:
quote, backslash and the control characters below 0x20 are escaped
(five of them by short forms), everything else is copied verbatim. -/
def jsonEscapeChar (c : Char) : List Char :=
  if c = '"' then ['\\', '"']
  else if c = '\\' then ['\\', '\\']
  else if c = '\x08' then ['\\', 'b']
  else if c = '\t' then ['\\', 't']
  else if c = '\n' then ['\\', 'n']
  else if c = '\x0c' then ['\\', 'f']
  else if c = '\r' then ['\\', 'r']
  else if c.toNat < 32 then
    ['\\', 'u', '0', '0', hexChar (c.toNat / 16), hexChar (c.toNat % 16)]
  else [c]

/-- JSON string escaping (`serde_json`). -/
def jsonEscape (s : String) : String := String.mk (s.data.flatMap jsonEscapeChar)

/-- A JSON string literal: quote, escaped contents, quote. -/
def jsonString (s : String) : String := "\"" ++ jsonEscape s ++ "\""

/-- Left-pad a digit list with zeros to length `k`. -/
def padZeros (k : Nat) (l : List Char) : List Char :=
  List.replicate (k - l.length) '0' ++ l

/-- Smallest exponent `k` with `den ∣ 10^k`, if any (up to the largest
exponent an `f64` value can require). -/
def decExp (den : Nat) : Option Nat :=
  (List.range 1200).find? (fun k => 10 ^ k % den = 0)

/-- Rendering of an `f64` JSON number as `serde_json` (via the ryu
shortest-roundtrip algorithm) prints the values arising in this
pipeline: the exact decimal expansion, with a trailing `.0` for integral
values. Every `f64` is a rational with a denominator dividing a power of
ten; the fallback branch is unreachable for such values and only keeps
the function total on all of `Rat`. -/
def renderNum (q : Rat) : String :=
  let sign := if q < 0 then "-" else ""
  let n := q.num.natAbs
  let den := q.den
  match decExp den with
  | none => sign ++ natStr n ++ "/" ++ natStr den
  | some k =>
    let scaled := n * 10 ^ k / den
    let ip := scaled / 10 ^ k
    let fr := scaled % 10 ^ k
    let ds := ((padZeros k (natChars fr)).reverse.dropWhile (fun c => c = '0')).reverse
    match ds with
    | [] => sign ++ natStr ip ++ ".0"
    | _ => sign ++ natStr ip ++ "." ++ String.mk ds

/-- One optional numeric member of the JSON payload
(`skip_serializing_if = "Option::is_none"`: absent fields are omitted
entirely). -/
def optNumField (key : String) (v : Option Int) : String :=
  match v with
  | none => ""
  | some x => ",\"" ++ key ++ "\":" ++ intStr x

/-- The JSON payload `serde_json::to_string` produces for a
`LocationRecord`: members in declaration order, `timestamp_nanos`
skipped, absent optional members omitted. -/
def jsonOfRecord (r : LocationRecord) : String :=
  "\x7b\"_type\":" ++ jsonString r.record_type
    ++ ",\"tid\":" ++ jsonString r.tid
    ++ ",\"tst\":" ++ intStr r.tst
    ++ ",\"lat\":" ++ renderNum r.lat
    ++ ",\"lon\":" ++ renderNum r.lon
    ++ optNumField "acc" r.acc
    ++ optNumField "alt" r.alt
    ++ optNumField "vac" r.vac
    ++ "\x7d"

/-- chrono `%Y`: the year, zero-padded to four digits, with a sign when
negative (or above 9999). -/
def isoYear (y : Int) : String :=
  if y < 0 then "-" ++ String.mk (padZeros 4 (natChars (-y).toNat))
  else if y > 9999 then "+" ++ natStr y.toNat
  else String.mk (padZeros 4 (natChars y.toNat))

/-- Two-digit zero-padded field (`%m`, `%d`, `%H`, `%M`, `%S`). -/
def pad2 (n : Nat) : String := String.mk (padZeros 2 (natChars n))

/-- chrono formatting of `get_timestamp()` with `%Y-%m-%dT%H:%M:%SZ`. -/
def isoOfNanos (ns : Int) : String :=
  let c := civilOfNanos ns
  let sod := sodOfSecs (secsOfNanos ns)
  isoYear c.1 ++ "-" ++ pad2 c.2.1 ++ "-" ++ pad2 c.2.2 ++ "T"
    ++ pad2 (sod / 3600) ++ ":" ++ pad2 (sod % 3600 / 60) ++ ":" ++ pad2 (sod % 60) ++ "Z"

/-- `LocationRecord::create_owntrack_line`: ISO timestamp, tab, asterisk,
seventeen spaces, tab, JSON payload, newline. -/
def create_owntrack_line (r : LocationRecord) : String :=
  isoOfNanos r.timestamp_nanos ++ "\t*                 \t" ++ jsonOfRecord r ++ "\n"

/-- The record of the repository's own unit test `test_record_to_ot_line`. -/
def testRecord : LocationRecord :=
  { record_type := "location", tid := "tt", tst := 1420978320,
    timestamp_nanos := 1420978320000000000, lat := 42, lon := 64,
    acc := some 20, alt := none, vac := none }

example :
    create_owntrack_line testRecord =
      "2015-01-11T12:12:00Z\t*                 \t\x7b\"_type\":\"location\",\"tid\":\"tt\",\"tst\":1420978320,\"lat\":42.0,\"lon\":64.0,\"acc\":20\x7d\n" := by
  decide

/-! ### Partitioned writer (the loop in `main`)

State of the loop: `active_file` (initially the empty string),
`active_lines` (lines accumulated for the current bucket), and the list
of file writes performed so far, each a file name paired with the lines
written to it in order (`File::create` truncates, so one entry is one
whole file content). -/

structure WriterState where
  active_file : String
  active_lines : List String
  writes : List (String × List String)
deriving DecidableEq

/-- The bucket file of a record:
`format!("rust_output/{year}-{month}.rec")` with the unpadded decimal
year and month of `get_timestamp()`. -/
def fileOfRec (r : LocationRecord) : String :=
  "rust_output/" ++ intStr (civilOfNanos r.timestamp_nanos).1 ++ "-"
    ++ natStr (civilOfNanos r.timestamp_nanos).2.1 ++ ".rec"

/-- One iteration of the writer loop: on a key change, flush the
accumulated lines to the previous file (if any) and start a new
accumulator; in both cases append the record's serialized line. -/
def writeStep (st : WriterState) (lr : LocationRecord) : WriterState :=
  if fileOfRec lr = st.active_file then
    { st with active_lines := st.active_lines ++ [create_owntrack_line lr] }
  else
    { active_file := fileOfRec lr,
      active_lines := [create_owntrack_line lr],
      writes :=
        if st.active_lines = [] then st.writes
        else st.writes ++ [(st.active_file, st.active_lines)] }

/-- The whole writer loop of `main`, starting from the initial state;
`main` finally prints `active_file` of the resulting state. -/
def processRecords (records : List LocationRecord) : WriterState :=
  records.foldl writeStep { active_file := "", active_lines := [], writes := [] }

/-- Structural recursion equivalent of the writer loop, carrying the
current bucket explicitly; used to relate the loop to the run
decomposition of its input. -/
def wgo (f : String) (al : List String) : List LocationRecord → WriterState
  | [] => { active_file := f, active_lines := al, writes := [] }
  | r :: rs =>
    if fileOfRec r = f then wgo f (al ++ [create_owntrack_line r]) rs
    else
      let rest := wgo (fileOfRec r) [create_owntrack_line r] rs
      if al = [] then rest
      else { rest with writes := (f, al) :: rest.writes }

theorem foldl_writeStep_wgo :
    ∀ (rs : List LocationRecord) (f : String) (al : List String)
      (ws : List (String × List String)),
      rs.foldl writeStep { active_file := f, active_lines := al, writes := ws } =
        { active_file := (wgo f al rs).active_file,
          active_lines := (wgo f al rs).active_lines,
          writes := ws ++ (wgo f al rs).writes } := by
  intro rs
  induction rs with
  | nil => intro f al ws; simp [wgo]
  | cons r rs ih =>
    intro f al ws
    rw [List.foldl_cons, wgo]
    by_cases hk : fileOfRec r = f
    · simp only [writeStep, hk, if_true, if_pos rfl]
      exact ih f (al ++ [create_owntrack_line r]) ws
    · simp only [writeStep, hk, if_neg hk]
      by_cases hal : al = []
      · simp only [hal, if_true, if_pos rfl]
        exact ih (fileOfRec r) [create_owntrack_line r] ws
      · simp only [hal, if_neg hal, if_false]
        rw [ih (fileOfRec r) [create_owntrack_line r] (ws ++ [(f, al)])]
        simp

/-- Maximal runs of adjacent records sharing a bucket file. -/
def runsOf : List LocationRecord → List (List LocationRecord)
  | [] => []
  | r :: rs =>
    match runsOf rs with
    | [] => [[r]]
    | [] :: more => [r] :: [] :: more
    | (x :: u) :: more =>
      if fileOfRec r = fileOfRec x then (r :: x :: u) :: more
      else [r] :: (x :: u) :: more

/-- Bucket file of a run (of its first record). -/
def keyOf : List LocationRecord → String
  | [] => ""
  | x :: _ => fileOfRec x

theorem runsOf_cons_shape (r : LocationRecord) (rs : List LocationRecord) :
    ∃ u more, runsOf (r :: rs) = (r :: u) :: more := by
  rw [runsOf]
  rcases hr : runsOf rs with _ | ⟨_ | ⟨x, u⟩, more⟩
  · exact ⟨[], [], rfl⟩
  · exact ⟨[], [] :: more, rfl⟩
  · by_cases hk : fileOfRec r = fileOfRec x
    · exact ⟨x :: u, more, by simp [hk]⟩
    · exact ⟨[], (x :: u) :: more, by simp [hk]⟩

theorem runsOf_flatten : ∀ (l : List LocationRecord), (runsOf l).flatten = l := by
  intro l
  induction l with
  | nil => rfl
  | cons r rs ih =>
    rw [runsOf]
    rcases hr : runsOf rs with _ | ⟨_ | ⟨x, u⟩, more⟩ <;> rw [hr] at ih
    · simpa using ih
    · simpa using ih
    · by_cases hk : fileOfRec r = fileOfRec x
      · simpa [hk] using ih
      · simpa [hk] using ih

/-- A run of a nonempty uniform list is the list itself. -/
theorem runsOf_uniform :
    ∀ (l : List LocationRecord) (k : String), l ≠ [] →
      (∀ x ∈ l, fileOfRec x = k) → runsOf l = [l] := by
  intro l
  induction l with
  | nil => intro k h; exact absurd rfl h
  | cons r rs ih =>
    intro k _ huni
    cases rs with
    | nil => rfl
    | cons y t =>
      have hrec : runsOf (y :: t) = [y :: t] :=
        ih k (by simp) (fun x hx => huni x (List.mem_cons_of_mem r hx))
      rw [runsOf, hrec]
      have h1 : fileOfRec r = k := huni r (List.mem_cons_self _ _)
      have h2 : fileOfRec y = k := huni y (by simp)
      simp [h1, h2]

theorem runsOf_append_of_ne :
    ∀ (run : List LocationRecord) (k : String) (s : LocationRecord)
      (rs : List LocationRecord),
      run ≠ [] → (∀ x ∈ run, fileOfRec x = k) → fileOfRec s ≠ k →
      runsOf (run ++ s :: rs) = run :: runsOf (s :: rs) := by
  intro run
  induction run with
  | nil => intro k s rs h; exact absurd rfl h
  | cons r t ih =>
    intro k s rs _ huni hs
    cases t with
    | nil =>
      obtain ⟨u, more, hshape⟩ := runsOf_cons_shape s rs
      rw [List.singleton_append, runsOf, hshape]
      have h1 : fileOfRec r = k := huni r (List.mem_cons_self _ _)
      have : fileOfRec r ≠ fileOfRec s := by rw [h1]; exact fun hh => hs hh.symm
      simp [this]
    | cons y t' =>
      have hrec := ih k s rs (by simp) (fun x hx => huni x (List.mem_cons_of_mem r hx)) hs
      have h1 : fileOfRec r = k := huni r (List.mem_cons_self _ _)
      have h2 : fileOfRec y = k := huni y (by simp)
      rw [List.cons_append, runsOf, hrec]
      simp [h1, h2]

theorem keyOf_append (run t : List LocationRecord) (h : run ≠ []) :
    keyOf (run ++ t) = keyOf run := by
  cases run with
  | nil => exact absurd rfl h
  | cons x u => rfl

theorem getLastD_irrel {α : Type} :
    ∀ (l : List α) (d d' : α), l ≠ [] → l.getLastD d = l.getLastD d' := by
  intro l d d' h
  cases l with
  | nil => exact absurd rfl h
  | cons x u => rw [List.getLastD_cons, List.getLastD_cons]

theorem runsOf_ne_nil (r : LocationRecord) (rs : List LocationRecord) :
    runsOf (r :: rs) ≠ [] := by
  obtain ⟨u, more, h⟩ := runsOf_cons_shape r rs
  simp [h]

theorem fileOfRec_ne_empty (r : LocationRecord) : fileOfRec r ≠ "" := by
  intro h
  have hd := congrArg String.data h
  rw [fileOfRec] at hd
  simp only [String.data_append] at hd
  exact absurd hd (by simp [String.data])

theorem wgo_spec :
    ∀ (rs run : List LocationRecord), run ≠ [] →
      (∀ x ∈ run, fileOfRec x = keyOf run) →
      wgo (keyOf run) (run.map create_owntrack_line) rs =
        { active_file := keyOf ((runsOf (run ++ rs)).getLastD []),
          active_lines := ((runsOf (run ++ rs)).getLastD []).map create_owntrack_line,
          writes := ((runsOf (run ++ rs)).dropLast).map
            (fun u => (keyOf u, u.map create_owntrack_line)) } := by
  intro rs
  induction rs with
  | nil =>
    intro run hne huni
    rw [wgo, List.append_nil, runsOf_uniform run (keyOf run) hne huni]
    simp
  | cons s rs ih =>
    intro run hne huni
    rw [wgo]
    by_cases hk : fileOfRec s = keyOf run
    · simp only [hk, if_true, if_pos rfl]
      have hmap : run.map create_owntrack_line ++ [create_owntrack_line s] =
          (run ++ [s]).map create_owntrack_line := by simp
      have hkey : keyOf (run ++ [s]) = keyOf run := keyOf_append run [s] hne
      have huni' : ∀ x ∈ run ++ [s], fileOfRec x = keyOf (run ++ [s]) := by
        intro x hx
        rw [hkey]
        rcases List.mem_append.mp hx with h1 | h2
        · exact huni x h1
        · simp only [List.mem_singleton] at h2
          rw [h2]
          exact hk
      rw [hmap, ← hkey, ih (run ++ [s]) (by simp) huni']
      rw [List.append_assoc, List.singleton_append]
    · simp only [hk, if_neg hk]
      have hal : run.map create_owntrack_line ≠ [] := by
        cases run with
        | nil => exact absurd rfl hne
        | cons x u => simp
      simp only [if_neg hal]
      have huni1 : ∀ x ∈ [s], fileOfRec x = keyOf [s] := by
        intro x hx
        simp only [List.mem_singleton] at hx
        rw [hx]
        rfl
      have hrest := ih [s] (by simp) huni1
      have hkey1 : keyOf [s] = fileOfRec s := rfl
      have hmap1 : ([s]).map create_owntrack_line = [create_owntrack_line s] := rfl
      rw [hkey1, hmap1, List.singleton_append] at hrest
      rw [hrest]
      rw [runsOf_append_of_ne run (keyOf run) s rs hne huni hk]
      have hR : runsOf (s :: rs) ≠ [] := runsOf_ne_nil s rs
      cases hS : runsOf (s :: rs) with
      | nil => exact absurd hS hR
      | cons v more =>
        have hlast : (run :: v :: more).getLastD [] = (v :: more).getLastD [] := by
          rw [List.getLastD_cons]
          exact getLastD_irrel (v :: more) run [] (by simp)
        rw [hlast, List.dropLast_cons₂, List.map_cons]
        simp

theorem processRecords_spec (records : List LocationRecord) :
    processRecords records =
      { active_file := keyOf ((runsOf records).getLastD []),
        active_lines := ((runsOf records).getLastD []).map create_owntrack_line,
        writes := ((runsOf records).dropLast).map
          (fun u => (keyOf u, u.map create_owntrack_line)) } := by
  cases records with
  | nil => rfl
  | cons r rs =>
    show (r :: rs).foldl writeStep
        { active_file := "", active_lines := [], writes := [] } = _
    rw [foldl_writeStep_wgo (r :: rs) "" [] []]
    have hne : ¬ fileOfRec r = "" := fileOfRec_ne_empty r
    have huni1 : ∀ x ∈ [r], fileOfRec x = keyOf [r] := by
      intro x hx
      simp only [List.mem_singleton] at hx
      rw [hx]
      rfl
    have h1 := wgo_spec rs [r] (by simp) huni1
    rw [show keyOf [r] = fileOfRec r from rfl,
      show ([r]).map create_owntrack_line = [create_owntrack_line r] from rfl,
      List.singleton_append] at h1
    conv_lhs => rw [wgo]
    simp only [if_neg hne]
    simp [h1]

theorem runsOf_no_nil : ∀ (l : List LocationRecord), [] ∉ runsOf l := by
  intro l
  induction l with
  | nil => simp [runsOf]
  | cons r rs ih =>
    rw [runsOf]
    rcases hr : runsOf rs with _ | ⟨_ | ⟨x, u⟩, more⟩ <;> rw [hr] at ih
    · simp
    · exact absurd (by simp) ih
    · by_cases hk : fileOfRec r = fileOfRec x
      · simp only [hk, if_true, if_pos rfl]
        intro hmem
        rcases List.mem_cons.mp hmem with h1 | h2
        · exact List.noConfusion h1.symm
        · exact ih (List.mem_cons_of_mem _ h2)
      · simp only [hk, if_neg hk]
        intro hmem
        rcases List.mem_cons.mp hmem with h1 | h2
        · exact List.noConfusion h1.symm
        · exact ih h2

theorem runsOf_uniform_mem :
    ∀ (l : List LocationRecord) (u : List LocationRecord), u ∈ runsOf l →
      ∀ x ∈ u, fileOfRec x = keyOf u := by
  intro l
  induction l with
  | nil => simp [runsOf]
  | cons r rs ih =>
    intro u hu
    rw [runsOf] at hu
    rcases hr : runsOf rs with _ | ⟨_ | ⟨x, u'⟩, more⟩ <;> rw [hr] at hu ih
    · simp only [List.mem_singleton] at hu
      subst hu
      intro x hx
      simp only [List.mem_singleton] at hx
      rw [hx]
      rfl
    · rcases List.mem_cons.mp hu with h1 | h2
      · subst h1
        intro z hz
        simp only [List.mem_singleton] at hz
        rw [hz]
        rfl
      · exact ih u h2
    · by_cases hk : fileOfRec r = fileOfRec x
      · simp only [hk, if_true, if_pos rfl] at hu
        rcases List.mem_cons.mp hu with h1 | h2
        · subst h1
          intro z hz
          have hx : ∀ w ∈ x :: u', fileOfRec w = fileOfRec x :=
            ih (x :: u') (by simp)
          rcases List.mem_cons.mp hz with hz1 | hz2
          · rw [hz1]
            rfl
          · show fileOfRec z = fileOfRec r
            rw [hx z hz2, hk]
        · exact ih u (List.mem_cons_of_mem _ h2)
      · simp only [hk, if_neg hk] at hu
        rcases List.mem_cons.mp hu with h1 | h2
        · subst h1
          intro z hz
          simp only [List.mem_singleton] at hz
          rw [hz]
          rfl
        · exact ih u h2

theorem runsOf_chain_ne :
    ∀ (l : List LocationRecord),
      List.Chain' (fun u v => keyOf u ≠ keyOf v) (runsOf l) := by
  intro l
  induction l with
  | nil => simp [runsOf]
  | cons r rs ih =>
    rcases hr : runsOf rs with _ | ⟨_ | ⟨x, u'⟩, more⟩ <;> rw [hr] at ih
    · have hval : runsOf (r :: rs) = [[r]] := by rw [runsOf, hr]
      rw [hval]
      simp
    · have hval : runsOf (r :: rs) = [r] :: [] :: more := by rw [runsOf, hr]
      rw [hval, List.chain'_cons]
      refine ⟨?_, ih⟩
      show fileOfRec r ≠ ""
      exact fileOfRec_ne_empty r
    · by_cases hk : fileOfRec r = fileOfRec x
      · have hval : runsOf (r :: rs) = (r :: x :: u') :: more := by
          rw [runsOf, hr]
          exact if_pos hk
        rw [hval]
        cases more with
        | nil => simp
        | cons w more' =>
          rw [List.chain'_cons] at ih ⊢
          refine ⟨?_, ih.2⟩
          show fileOfRec r ≠ keyOf w
          rw [hk]
          exact ih.1
      · have hval : runsOf (r :: rs) = [r] :: (x :: u') :: more := by
          rw [runsOf, hr]
          exact if_neg hk
        rw [hval, List.chain'_cons]
        exact ⟨hk, ih⟩

theorem dash_not_mem_month_tail (m : Nat) :
    '-' ∉ natChars m ++ (".rec" : String).data := by
  intro hmem
  rcases List.mem_append.mp hmem with h1 | h2
  · exact absurd (natChars_digits m '-' h1) (by decide)
  · exact absurd h2 (by decide)

/-- Two records land in the same bucket file exactly when their
timestamps fall in the same linearized calendar month. In particular two
distinct (year, month) pairs never collide on a file name. -/
theorem fileOfRec_eq_iff (r r' : LocationRecord) :
    fileOfRec r = fileOfRec r' ↔
      bucketIdx r.timestamp_nanos = bucketIdx r'.timestamp_nanos := by
  constructor
  · intro h
    have hd := congrArg String.data h
    simp only [fileOfRec, String.data_append, List.append_assoc] at hd
    have hd2 := List.append_cancel_left hd
    rw [List.singleton_append, List.singleton_append] at hd2
    obtain ⟨hy, hm⟩ := sep_split _ _ _ _
      (dash_not_mem_month_tail _) (dash_not_mem_month_tail _) hd2
    have hyeq : (civilOfNanos r.timestamp_nanos).1 =
        (civilOfNanos r'.timestamp_nanos).1 :=
      intStr_injective (String.ext hy)
    have hmeq : (civilOfNanos r.timestamp_nanos).2.1 =
        (civilOfNanos r'.timestamp_nanos).2.1 :=
      natChars_injective (List.append_cancel_right hm)
    have e1 := civilOfNanos_bucketIdx r.timestamp_nanos
    have e2 := civilOfNanos_bucketIdx r'.timestamp_nanos
    rw [hyeq, hmeq] at e1
    omega
  · intro h
    obtain ⟨hy, hm⟩ := ym_eq_of_bucketIdx_eq h
    unfold fileOfRec
    rw [hy, hm]

theorem getLastD_mem {α : Type} (l : List α) (d : α) (h : l ≠ []) :
    l.getLastD d ∈ l := by
  cases l with
  | nil => exact absurd rfl h
  | cons x u =>
    rw [List.getLastD_cons]
    clear h
    induction u generalizing x with
    | nil => simp
    | cons y v ih =>
      rw [List.getLastD_cons]
      exact List.mem_cons_of_mem x (ih y)

theorem keys_pairwise_ne_aux :
    ∀ (L : List (List LocationRecord)),
      [] ∉ L →
      (∀ v ∈ L, ∀ x ∈ v, fileOfRec x = keyOf v) →
      List.Chain' (fun u v => keyOf u ≠ keyOf v) L →
      L.Pairwise (fun u v => ∀ x ∈ u, ∀ y ∈ v,
        x.timestamp_nanos ≤ y.timestamp_nanos) →
      L.Pairwise (fun u v => keyOf u ≠ keyOf v) := by
  intro L
  induction L with
  | nil => intro _ _ _ _; exact List.Pairwise.nil
  | cons u L ih =>
    intro hnil huni hchain hord
    have hrel := (List.pairwise_cons.mp hord).1
    have hordtail := (List.pairwise_cons.mp hord).2
    refine List.Pairwise.cons ?_
      (ih (fun hc => hnil (List.mem_cons_of_mem _ hc))
        (fun v hv => huni v (List.mem_cons_of_mem _ hv)) hchain.tail hordtail)
    intro v hv hkey
    cases L with
    | nil => exact absurd hv (List.not_mem_nil v)
    | cons w L' =>
      have hkuw : keyOf u ≠ keyOf w := (List.chain'_cons.mp hchain).1
      rcases List.mem_cons.mp hv with hvw | hv'
      · exact hkuw (hvw ▸ hkey)
      · have hune : u ≠ [] := fun hc => hnil (hc ▸ List.mem_cons_self _ _)
        have hwne : w ≠ [] := fun hc =>
          hnil (List.mem_cons_of_mem _ (hc ▸ List.mem_cons_self _ _))
        have hvne : v ≠ [] := fun hc => hnil (List.mem_cons_of_mem _ (hc ▸ hv))
        obtain ⟨xu, hxu⟩ := List.exists_mem_of_ne_nil u hune
        obtain ⟨xw, hxw⟩ := List.exists_mem_of_ne_nil w hwne
        obtain ⟨xv, hxv⟩ := List.exists_mem_of_ne_nil v hvne
        have h1 : xu.timestamp_nanos ≤ xw.timestamp_nanos :=
          hrel w (List.mem_cons_self _ _) xu hxu xw hxw
        have h2 : xw.timestamp_nanos ≤ xv.timestamp_nanos :=
          (List.pairwise_cons.mp hordtail).1 v hv' xw hxw xv hxv
        have hku : fileOfRec xu = keyOf u :=
          huni u (List.mem_cons_self _ _) xu hxu
        have hkw : fileOfRec xw = keyOf w :=
          huni w (List.mem_cons_of_mem _ (List.mem_cons_self _ _)) xw hxw
        have hkv : fileOfRec xv = keyOf v :=
          huni v (List.mem_cons_of_mem _ hv) xv hxv
        have hfuv : fileOfRec xu = fileOfRec xv := by rw [hku, hkv, hkey]
        have hbuv : bucketIdx xu.timestamp_nanos = bucketIdx xv.timestamp_nanos :=
          (fileOfRec_eq_iff _ _).mp hfuv
        have hb1 : bucketIdx xu.timestamp_nanos ≤ bucketIdx xw.timestamp_nanos :=
          bucketIdx_mono h1
        have hb2 : bucketIdx xw.timestamp_nanos ≤ bucketIdx xv.timestamp_nanos :=
          bucketIdx_mono h2
        have hbuw : bucketIdx xu.timestamp_nanos = bucketIdx xw.timestamp_nanos := by
          omega
        have heq : fileOfRec xu = fileOfRec xw := (fileOfRec_eq_iff _ _).mpr hbuw
        rw [hku, hkw] at heq
        exact hkuw heq

/-- On a record stream whose timestamps are non-decreasing, distinct runs
have distinct bucket files. -/
theorem runs_keys_pairwise_ne (records : List LocationRecord)
    (hs : records.Pairwise (fun a b => a.timestamp_nanos ≤ b.timestamp_nanos)) :
    (runsOf records).Pairwise (fun u v => keyOf u ≠ keyOf v) := by
  have hflat : (runsOf records).flatten = records := runsOf_flatten records
  have hord : (runsOf records).Pairwise
      (fun u v => ∀ x ∈ u, ∀ y ∈ v, x.timestamp_nanos ≤ y.timestamp_nanos) := by
    rw [← hflat] at hs
    exact (List.pairwise_flatten.mp hs).2
  exact keys_pairwise_ne_aux (runsOf records) (runsOf_no_nil records)
    (runsOf_uniform_mem records) (runsOf_chain_ne records) hord

/-- With pairwise-distinct run keys, filtering the whole stream by a
run's key returns exactly that run. -/
theorem flatten_filter_key :
    ∀ (L : List (List LocationRecord)),
      (∀ v ∈ L, ∀ x ∈ v, fileOfRec x = keyOf v) →
      L.Pairwise (fun u v => keyOf u ≠ keyOf v) →
      ∀ u ∈ L, L.flatten.filter (fun r => fileOfRec r = keyOf u) = u := by
  intro L
  induction L with
  | nil => simp
  | cons v L' ih =>
    intro huni hpw u hu
    have hpwtail := (List.pairwise_cons.mp hpw).2
    have hpwhead := (List.pairwise_cons.mp hpw).1
    rw [List.flatten_cons, List.filter_append]
    rcases List.mem_cons.mp hu with huv | hu'
    · have hfv : List.filter (fun r => fileOfRec r = keyOf u) v = v := by
        rw [List.filter_eq_self]
        intro a ha
        simp only [decide_eq_true_eq]
        rw [huv]
        exact huni v (List.mem_cons_self _ _) a ha
      have hrest : List.filter (fun r => fileOfRec r = keyOf u) L'.flatten = [] := by
        rw [List.filter_eq_nil_iff]
        intro a ha
        obtain ⟨w, hw, haw⟩ := List.mem_flatten.mp ha
        simp only [decide_eq_true_eq]
        rw [huni w (List.mem_cons_of_mem _ hw) a haw, huv]
        exact fun hc => (hpwhead w hw) hc.symm
      rw [hfv, hrest, List.append_nil]
      exact huv.symm
    · have hfv : List.filter (fun r => fileOfRec r = keyOf u) v = [] := by
        rw [List.filter_eq_nil_iff]
        intro a ha
        simp only [decide_eq_true_eq]
        rw [huni v (List.mem_cons_self _ _) a ha]
        exact hpwhead u hu'
      rw [hfv, List.nil_append]
      exact ih (fun w hw => huni w (List.mem_cons_of_mem _ hw)) hpwtail u hu'

/-! ### Facts about the transform -/

theorem mapM_option_forall₂ {α β : Type} (f : α → Option β) :
    ∀ (l : List α) (out : List β), l.mapM f = some out →
      List.Forall₂ (fun x y => f x = some y) l out := by
  intro l
  induction l with
  | nil =>
    intro out h
    rw [List.mapM_nil] at h
    cases h
    exact List.Forall₂.nil
  | cons x t ih =>
    intro out h
    rw [List.mapM_cons] at h
    cases hf : f x with
    | none => rw [hf] at h; cases h
    | some y =>
      rw [hf] at h
      cases ht : t.mapM f with
      | none => rw [ht] at h; cases h
      | some ys =>
        rw [ht] at h
        cases h
        exact List.Forall₂.cons hf (ih ys ht)

theorem forall₂_mem_right {α β : Type} {P : α → β → Prop} :
    ∀ {l : List α} {out : List β}, List.Forall₂ P l out →
      ∀ y ∈ out, ∃ x ∈ l, P x y := by
  intro l out hf
  induction hf with
  | nil => simp
  | cons h _ ih =>
    intro y hy
    rcases List.mem_cons.mp hy with h1 | h2
    · exact ⟨_, List.mem_cons_self _ _, h1 ▸ h⟩
    · obtain ⟨x, hx, hp⟩ := ih y h2
      exact ⟨x, List.mem_cons_of_mem _ hx, hp⟩

theorem pairwise_of_forall₂ {α β : Type} {P : α → β → Prop}
    {Q : α → α → Prop} {R : β → β → Prop}
    (hPQ : ∀ x y a b, P x a → P y b → Q x y → R a b) :
    ∀ {l : List α} {out : List β}, List.Forall₂ P l out →
      l.Pairwise Q → out.Pairwise R := by
  intro l out hf
  induction hf with
  | nil => intro _; exact List.Pairwise.nil
  | @cons x a l' out' h htail ih =>
    intro hpw
    rcases List.pairwise_cons.mp hpw with ⟨hhead, htl⟩
    refine List.Pairwise.cons ?_ (ih htl)
    intro b hb
    obtain ⟨y, hy, hp⟩ := forall₂_mem_right htail b hb
    exact hPQ x y a b h hp (hhead y hy)

theorem buildRecord_some {tid : String} {row : TRow} {r : LocationRecord}
    (h : buildRecord tid row = some r) :
    row.lat = some r.lat ∧ row.long = some r.lon ∧
      row.timestamp = some r.timestamp_nanos ∧ row.tst = some r.tst ∧
      r.acc = row.acc ∧ r.alt = row.alt ∧ r.vac = row.vac ∧
      r.tid = tid ∧ r.record_type = "location" := by
  unfold buildRecord at h
  simp only [Option.bind_eq_some, Option.map_eq_some'] at h
  obtain ⟨lat, hl, lon, hg, ns, ht, t, hs, hr⟩ := h
  subst hr
  exact ⟨hl, hg, ht, hs, rfl, rfl, rfl, rfl, rfl⟩

theorem tstLe_trans (a b c : TRow) (h1 : tstLe a b = true) (h2 : tstLe b c = true) :
    tstLe a c = true := by
  unfold tstLe at h1 h2 ⊢
  revert h1 h2
  rcases a.tst with _ | x <;> rcases b.tst with _ | y <;>
    rcases c.tst with _ | z <;> simp [optIntLe] <;> omega

theorem tstLe_total (a b : TRow) : (tstLe a b || tstLe b a) = true := by
  unfold tstLe
  rcases a.tst with _ | x <;> rcases b.tst with _ | y <;> simp [optIntLe] <;> omega

theorem insertByTst_perm (x : TRow) :
    ∀ (l : List TRow), (insertByTst x l).Perm (x :: l) := by
  intro l
  induction l with
  | nil => exact List.Perm.refl _
  | cons y t ih =>
    rw [insertByTst]
    split
    · exact List.Perm.refl _
    · exact ((ih.cons y).trans (List.Perm.swap x y t))

theorem sortByTst_perm : ∀ (l : List TRow), (sortByTst l).Perm l := by
  intro l
  induction l with
  | nil => exact List.Perm.refl _
  | cons x t ih =>
    rw [sortByTst]
    exact (insertByTst_perm x (sortByTst t)).trans (ih.cons x)

theorem mem_insertByTst {x z : TRow} {l : List TRow}
    (h : z ∈ insertByTst x l) : z = x ∨ z ∈ l :=
  List.mem_cons.mp ((insertByTst_perm x l).mem_iff.mp h)

theorem pairwise_insertByTst (x : TRow) :
    ∀ (l : List TRow), l.Pairwise (fun a b => tstLe a b = true) →
      (insertByTst x l).Pairwise (fun a b => tstLe a b = true) := by
  intro l
  induction l with
  | nil => intro _; exact List.pairwise_singleton _ _
  | cons y t ih =>
    intro hl
    rcases List.pairwise_cons.mp hl with ⟨hy, ht⟩
    rw [insertByTst]
    split
    · next hxy =>
      refine List.Pairwise.cons ?_ hl
      intro z hz
      rcases List.mem_cons.mp hz with h1 | h2
      · rw [h1]; exact hxy
      · exact tstLe_trans x y z hxy (hy z h2)
    · next hxy =>
      have hyx : tstLe y x = true := by
        have := tstLe_total x y
        revert this hxy
        cases tstLe x y <;> cases tstLe y x <;> simp
      refine List.Pairwise.cons ?_ (ih ht)
      intro z hz
      rcases mem_insertByTst hz with h1 | h2
      · rw [h1]; exact hyx
      · exact hy z h2

theorem sortByTst_sorted : ∀ (l : List TRow),
    (sortByTst l).Pairwise (fun a b => tstLe a b = true) := by
  intro l
  induction l with
  | nil => exact List.Pairwise.nil
  | cons x t ih =>
    rw [sortByTst]
    exact pairwise_insertByTst x (sortByTst t) ih

/-- Every output record of a successful transform derives from an input
row that passed both filters. -/
theorem transform_mem {rows : List RawFix} {tid : String} {ex : Int}
    {out : List LocationRecord} (h : transform rows tid ex = some out) :
    ∀ rec ∈ out, ∃ raw, raw ∈ rows ∧
      exclKeep ex (normalize raw) = true ∧ validKeep (normalize raw) = true ∧
      buildRecord tid (normalize raw) = some rec := by
  intro rec hrec
  unfold transform at h
  have hf := mapM_option_forall₂ (buildRecord tid) _ _ h
  obtain ⟨row, hrow, hb⟩ := forall₂_mem_right hf rec hrec
  have hrow' : row ∈ keptRows rows ex :=
    (sortByTst_perm (keptRows rows ex)).mem_iff.mp hrow
  unfold keptRows at hrow'
  rcases List.mem_filter.mp hrow' with ⟨h1, hval⟩
  rcases List.mem_filter.mp h1 with ⟨h2, hexcl⟩
  obtain ⟨raw, hraw, hn⟩ := List.mem_map.mp h2
  subst hn
  exact ⟨raw, hraw, hexcl, hval, hb⟩

theorem flatten_dropLast_getLastD {α : Type} :
    ∀ (L : List (List α)), L.dropLast.flatten ++ L.getLastD [] = L.flatten := by
  intro L
  induction L with
  | nil => rfl
  | cons u L ih =>
    cases L with
    | nil => simp
    | cons v L' =>
      rw [List.dropLast_cons₂, List.flatten_cons, List.flatten_cons,
        List.getLastD_cons, List.append_assoc,
        getLastD_irrel (v :: L') u [] (by simp), ih]

/-- Conservation: the lines flushed to disk followed by the lines still
in the accumulator are exactly the serialized records, in order. -/
theorem writer_conservation (records : List LocationRecord) :
    ((processRecords records).writes.map Prod.snd).flatten
      ++ (processRecords records).active_lines
      = records.map create_owntrack_line := by
  rw [processRecords_spec]
  show (((runsOf records).dropLast.map
      (fun u => (keyOf u, u.map create_owntrack_line))).map Prod.snd).flatten
      ++ ((runsOf records).getLastD []).map create_owntrack_line = _
  rw [List.map_map]
  have h1 : (Prod.snd ∘ fun u => (keyOf u, u.map create_owntrack_line)) =
      fun u => u.map create_owntrack_line := rfl
  rw [h1, ← List.map_flatten, ← List.map_append, flatten_dropLast_getLastD,
    runsOf_flatten]

theorem writeStep_active_file (st : WriterState) (r : LocationRecord) :
    (writeStep st r).active_file = fileOfRec r := by
  unfold writeStep
  split
  · next h => simpa using h.symm
  · rfl

/-- The reported path is the bucket file of the last record processed. -/
theorem processRecords_active_file (records : List LocationRecord)
    (h : records ≠ []) :
    (processRecords records).active_file = fileOfRec (records.getLast h) := by
  conv_lhs => rw [← List.dropLast_append_getLast h]
  unfold processRecords
  rw [List.foldl_append, List.foldl_cons, List.foldl_nil]
  exact writeStep_active_file _ _

/-! ### Newline freedom of the serialized payload

Every character of a serialized line except the final terminator differs
from the newline character, so each record yields exactly one line. -/

/-- The string contains no newline character. -/
abbrev noNL (s : String) : Prop := '\n' ∉ s.data

theorem noNL_append {s t : String} (hs : noNL s) (ht : noNL t) : noNL (s ++ t) := by
  unfold noNL at *
  rw [String.data_append]
  intro h
  rcases List.mem_append.mp h with h1 | h2
  · exact hs h1
  · exact ht h2

theorem noNL_natChars (n : Nat) : '\n' ∉ natChars n :=
  fun h => absurd (natChars_digits n _ h) (by decide)

theorem noNL_natStr (n : Nat) : noNL (natStr n) := noNL_natChars n

theorem noNL_intStr (i : Int) : noNL (intStr i) := by
  unfold intStr noNL
  split
  · intro h
    rcases List.mem_cons.mp h with h1 | h2
    · exact absurd h1 (by decide)
    · exact noNL_natChars _ h2
  · exact noNL_natStr _

theorem noNL_padZeros (k : Nat) (l : List Char) (hl : '\n' ∉ l) :
    '\n' ∉ padZeros k l := by
  unfold padZeros
  intro h
  rcases List.mem_append.mp h with h1 | h2
  · exact absurd (List.eq_of_mem_replicate h1) (by decide)
  · exact hl h2

theorem noNL_pad2 (n : Nat) : noNL (pad2 n) :=
  noNL_padZeros 2 _ (noNL_natChars n)

theorem noNL_isoYear (y : Int) : noNL (isoYear y) := by
  unfold isoYear
  split
  · refine noNL_append (by decide) ?_
    exact noNL_padZeros 4 _ (noNL_natChars _)
  · split
    · exact noNL_append (by decide) (noNL_natStr _)
    · exact noNL_padZeros 4 _ (noNL_natChars _)

theorem noNL_isoOfNanos (ns : Int) : noNL (isoOfNanos ns) := by
  simp only [isoOfNanos]
  exact noNL_append (noNL_append (noNL_append (noNL_append (noNL_append
    (noNL_append (noNL_append (noNL_append (noNL_append (noNL_append
      (noNL_append (noNL_isoYear _) (by decide)) (noNL_pad2 _)) (by decide))
      (noNL_pad2 _)) (by decide)) (noNL_pad2 _)) (by decide)) (noNL_pad2 _))
      (by decide)) (noNL_pad2 _)) (by decide)

theorem hexChar_ne_nl (d : Nat) (h : d ≤ 15) : hexChar d ≠ '\n' := by
  interval_cases d <;> decide

theorem jsonEscapeChar_no_nl (c x : Char) (hx : x ∈ jsonEscapeChar c) : x ≠ '\n' := by
  unfold jsonEscapeChar at hx
  split_ifs at hx with h1 h2 h3 h4 h5 h6 h7 h8
  · intro he; subst he; exact absurd hx (by decide)
  · intro he; subst he; exact absurd hx (by decide)
  · intro he; subst he; exact absurd hx (by decide)
  · intro he; subst he; exact absurd hx (by decide)
  · intro he; subst he; exact absurd hx (by decide)
  · intro he; subst he; exact absurd hx (by decide)
  · intro he; subst he; exact absurd hx (by decide)
  · simp only [List.mem_cons, List.not_mem_nil, or_false] at hx
    rcases hx with hx | hx | hx | hx | hx | hx
    · rw [hx]; decide
    · rw [hx]; decide
    · rw [hx]; decide
    · rw [hx]; decide
    · rw [hx]; exact hexChar_ne_nl _ (by omega)
    · rw [hx]; exact hexChar_ne_nl _ (by omega)
  · simp only [List.mem_singleton] at hx
    rw [hx]
    exact h5

theorem noNL_jsonEscape (s : String) : noNL (jsonEscape s) := by
  intro h
  obtain ⟨c, _, hc⟩ := List.mem_flatMap.mp h
  exact jsonEscapeChar_no_nl c _ hc rfl

theorem noNL_jsonString (s : String) : noNL (jsonString s) :=
  noNL_append (noNL_append (by decide) (noNL_jsonEscape s)) (by decide)

theorem noNL_sign (q : Rat) : noNL (if q < 0 then "-" else "") := by
  split <;> decide

theorem noNL_renderNum (q : Rat) : noNL (renderNum q) := by
  simp only [renderNum]
  split
  · exact noNL_append (noNL_append (noNL_append (noNL_sign q) (noNL_natStr _))
      (by decide)) (noNL_natStr _)
  · split
    · exact noNL_append (noNL_append (noNL_sign q) (noNL_natStr _)) (by decide)
    · refine noNL_append (noNL_append (noNL_append (noNL_sign q) (noNL_natStr _))
        (by decide)) ?_
      intro hmem
      have hmem2 := (List.dropWhile_sublist _).subset (List.mem_reverse.mp hmem)
      exact noNL_padZeros _ _ (noNL_natChars _) (List.mem_reverse.mp hmem2)

theorem noNL_optNumField (key : String) (hkey : noNL key) (v : Option Int) :
    noNL (optNumField key v) := by
  unfold optNumField
  cases v with
  | none =>
    show noNL ""
    decide
  | some x =>
    exact noNL_append (noNL_append (noNL_append (by decide) hkey) (by decide))
      (noNL_intStr x)

theorem noNL_jsonOfRecord (r : LocationRecord) : noNL (jsonOfRecord r) := by
  unfold jsonOfRecord
  exact noNL_append (noNL_append (noNL_append (noNL_append (noNL_append
    (noNL_append (noNL_append (noNL_append (noNL_append (noNL_append
      (noNL_append (noNL_append (noNL_append (by decide) (noNL_jsonString _))
        (by decide)) (noNL_jsonString _)) (by decide)) (noNL_intStr _))
        (by decide)) (noNL_renderNum _)) (by decide)) (noNL_renderNum _))
        (noNL_optNumField _ (by decide) _)) (noNL_optNumField _ (by decide) _))
        (noNL_optNumField _ (by decide) _)) (by decide)

/-- Everything before the final newline of a serialized line is
newline-free. -/
theorem noNL_line_head (r : LocationRecord) :
    noNL (isoOfNanos r.timestamp_nanos ++ "\t*                 \t"
      ++ jsonOfRecord r) :=
  noNL_append (noNL_append (noNL_isoOfNanos _) (by decide)) (noNL_jsonOfRecord r)

theorem line_count_nl (r : LocationRecord) :
    (create_owntrack_line r).data.count '\n' = 1 := by
  unfold create_owntrack_line
  rw [String.data_append, List.count_append,
    List.count_eq_zero.mpr (noNL_line_head r)]
  rfl

theorem line_getLast_nl (r : LocationRecord) :
    (create_owntrack_line r).data.getLast? = some '\n' := by
  unfold create_owntrack_line
  rw [String.data_append, List.getLast?_append]
  rfl

/-! ### The claims -/

/-- C1: for every non-empty record stream consumed by the writer loop,
the lines accumulated for the final (last-seen) bucket key are never
written to disk — the writes are exactly one per maximal run of equal
bucket keys except the final run, whose serialized lines remain in the
accumulator (which is nonempty) when the loop ends — and on completion
the reported path is the bucket file of the last record processed. -/
theorem claim1_last_bucket_unflushed (records : List LocationRecord)
    (hne : records ≠ []) :
    (processRecords records).active_file = fileOfRec (records.getLast hne) ∧
    (processRecords records).writes =
      ((runsOf records).dropLast).map
        (fun u => (keyOf u, u.map create_owntrack_line)) ∧
    (processRecords records).active_lines =
      ((runsOf records).getLastD []).map create_owntrack_line ∧
    (processRecords records).active_lines ≠ [] ∧
    ((processRecords records).writes.map Prod.snd).flatten
      ++ (processRecords records).active_lines
      = records.map create_owntrack_line := by
  refine ⟨processRecords_active_file records hne, ?_, ?_, ?_,
    writer_conservation records⟩
  · rw [processRecords_spec]
  · rw [processRecords_spec]
  · rw [processRecords_spec]
    show ((runsOf records).getLastD []).map create_owntrack_line ≠ []
    intro hc
    rw [List.map_eq_nil_iff] at hc
    apply runsOf_no_nil records
    rw [← hc]
    apply getLastD_mem
    cases records with
    | nil => exact absurd rfl hne
    | cons r rs => exact runsOf_ne_nil r rs

theorem claim1_witness :
    (processRecords [testRecord]).active_file =
      fileOfRec ([testRecord].getLast (by decide)) :=
  (claim1_last_bucket_unflushed [testRecord] (by decide)).1

/-- C2: a row whose device tag equals the run's excluded id contributes
no record to the transform output (every output record derives from a
kept row whose tag differs from the excluded id), and a row with a null
device tag always passes the exclusion filter. -/
theorem claim2_exclusion_filter (rows : List RawFix) (tid : String) (ex : Int)
    (out : List LocationRecord) (h : transform rows tid ex = some out) :
    (∀ rec ∈ out, ∃ raw, raw ∈ rows ∧ raw.deviceTag ≠ some ex ∧
      buildRecord tid (normalize raw) = some rec) ∧
    (∀ row : TRow, row.deviceTag = none → exclKeep ex row = true) := by
  constructor
  · intro rec hrec
    obtain ⟨raw, hraw, hexcl, _, hb⟩ := transform_mem h rec hrec
    refine ⟨raw, hraw, ?_, hb⟩
    intro hc
    unfold exclKeep at hexcl
    rw [show (normalize raw).deviceTag = raw.deviceTag from rfl, hc] at hexcl
    simp [tagKeep] at hexcl
  · intro row hnone
    unfold exclKeep
    rw [hnone]
    rfl

def fixA : RawFix :=
  { deviceTag := some 1, latitudeE7 := some 10000000,
    longitudeE7 := some 20000000, timestamp := some 0,
    accuracy := none, altitude := none, verticalAccuracy := none }

def fixB : RawFix :=
  { deviceTag := none, latitudeE7 := some 420000000,
    longitudeE7 := some 640000000, timestamp := some 1420978320000000000,
    accuracy := some 20, altitude := none, verticalAccuracy := none }

/-- The record `transform` produces for `fixB`, written with the exact
field terms the pipeline builds (so the equation below is definitional). -/
def recSample : LocationRecord :=
  { record_type := "location", tid := "tt",
    tst := (1420978320000000000 : Int).tdiv 1000000000,
    timestamp_nanos := 1420978320000000000,
    lat := ((420000000 : Int) : Rat) / 10000000,
    lon := ((640000000 : Int) : Rat) / 10000000,
    acc := some 20, alt := none, vac := none }

theorem claim2_witness :
    transform [fixA, fixB] "tt" 1 = some [recSample] ∧
      exclKeep 1 (normalize fixB) = true :=
  ⟨rfl,
   (claim2_exclusion_filter [fixA, fixB] "tt" 1 [recSample] rfl).2
     (normalize fixB) rfl⟩

/-- C3: the records of a successful transform are non-decreasing in
`tst`, and the writer emits their serialized lines in exactly that
order: the flushed lines followed by the still-buffered lines are the
serialized records in sequence. -/
theorem claim3_global_ordering (rows : List RawFix) (tid : String) (ex : Int)
    (out : List LocationRecord) (h : transform rows tid ex = some out) :
    out.Pairwise (fun a b => a.tst ≤ b.tst) ∧
    ((processRecords out).writes.map Prod.snd).flatten
      ++ (processRecords out).active_lines = out.map create_owntrack_line := by
  refine ⟨?_, writer_conservation out⟩
  unfold transform at h
  have hf := mapM_option_forall₂ (buildRecord tid) _ _ h
  have hsorted := sortByTst_sorted (keptRows rows ex)
  refine pairwise_of_forall₂ ?_ hf hsorted
  intro x y a b hxa hyb hq
  have hx := (buildRecord_some hxa).2.2.2.1
  have hy := (buildRecord_some hyb).2.2.2.1
  unfold tstLe at hq
  rw [hx, hy] at hq
  simpa [optIntLe] using hq

theorem claim3_witness :
    List.Pairwise (fun a b : LocationRecord => a.tst ≤ b.tst) [recSample] :=
  (claim3_global_ordering [fixA, fixB] "tt" 1 [recSample] rfl).1

/-- C4: the serializer produces, for every record, the ISO-8601 UTC
timestamp, a tab, an asterisk, exactly seventeen spaces, another tab,
then the JSON object with keys in the fixed order `_type, tid, tst, lat,
lon` followed by exactly those of `acc, alt, vac` that are present
(absent fields are omitted entirely), terminated by a newline — and the
newline terminator is the only newline in the line. -/
theorem claim4_line_format (r : LocationRecord) :
    create_owntrack_line r =
      isoOfNanos r.timestamp_nanos ++ "\t" ++ "*"
        ++ String.mk (List.replicate 17 ' ') ++ "\t"
        ++ ("\x7b\"_type\":" ++ jsonString r.record_type
          ++ ",\"tid\":" ++ jsonString r.tid
          ++ ",\"tst\":" ++ intStr r.tst
          ++ ",\"lat\":" ++ renderNum r.lat
          ++ ",\"lon\":" ++ renderNum r.lon
          ++ optNumField "acc" r.acc ++ optNumField "alt" r.alt
          ++ optNumField "vac" r.vac ++ "\x7d")
        ++ "\n" ∧
    (r.acc = none → optNumField "acc" r.acc = "") ∧
    (∀ n, r.acc = some n → optNumField "acc" r.acc = ",\"acc\":" ++ intStr n) ∧
    (r.alt = none → optNumField "alt" r.alt = "") ∧
    (∀ n, r.alt = some n → optNumField "alt" r.alt = ",\"alt\":" ++ intStr n) ∧
    (r.vac = none → optNumField "vac" r.vac = "") ∧
    (∀ n, r.vac = some n → optNumField "vac" r.vac = ",\"vac\":" ++ intStr n) ∧
    (create_owntrack_line r).data.count '\n' = 1 ∧
    (create_owntrack_line r).data.getLast? = some '\n' := by
  have hsep : ("\t*                 \t" : String) =
      "\t" ++ "*" ++ String.mk (List.replicate 17 ' ') ++ "\t" := by decide
  refine ⟨?_, fun h => by rw [h]; rfl, fun n h => by rw [h]; rfl,
    fun h => by rw [h]; rfl, fun n h => by rw [h]; rfl,
    fun h => by rw [h]; rfl, fun n h => by rw [h]; rfl,
    line_count_nl r, line_getLast_nl r⟩
  unfold create_owntrack_line jsonOfRecord
  rw [hsep]
  simp only [String.append_assoc]

theorem claim4_witness :
    optNumField "acc" testRecord.acc = ",\"acc\":" ++ intStr 20 ∧
      optNumField "alt" testRecord.alt = "" :=
  ⟨(claim4_line_format testRecord).2.2.1 20 rfl,
   (claim4_line_format testRecord).2.2.2.1 rfl⟩

theorem claim4_sanity :
    create_owntrack_line testRecord =
      "2015-01-11T12:12:00Z\t*                 \t\x7b\"_type\":\"location\",\"tid\":\"tt\",\"tst\":1420978320,\"lat\":42.0,\"lon\":64.0,\"acc\":20\x7d\n" := by
  decide

/-- C5: a row whose normalized latitude is null fails the validity
filter, and every output record of a successful transform derives from a
row that passed both the exclusion filter and the validity filter. -/
theorem claim5_validity_filter (rows : List RawFix) (tid : String) (ex : Int)
    (out : List LocationRecord) (h : transform rows tid ex = some out) :
    (∀ row : TRow, row.lat = none → validKeep row = false) ∧
    (∀ rec ∈ out, ∃ raw, raw ∈ rows ∧ exclKeep ex (normalize raw) = true ∧
      validKeep (normalize raw) = true ∧
      buildRecord tid (normalize raw) = some rec) := by
  constructor
  · intro row hnone
    unfold validKeep
    rw [hnone]
    rfl
  · exact transform_mem h

def rowNoLat : TRow :=
  { lat := none, long := none, acc := none, alt := none, vac := none,
    timestamp := none, tst := none, deviceTag := none }

theorem claim5_witness :
    transform [fixA, fixB] "tt" 1 = some [recSample] ∧
      validKeep rowNoLat = false :=
  ⟨rfl,
   (claim5_validity_filter [fixA, fixB] "tt" 1 [recSample] rfl).1
     rowNoLat rfl⟩

/-- C6: every record of a successful transform satisfies
`tst = timestamp_nanos.tdiv 1e9` (truncating division, exactly what the
polars Int64 division performs), which on the non-negative timestamps of
the data domain coincides with the floor division `timestamp_nanos / 1e9`. -/
theorem claim6_tst_truncdiv (rows : List RawFix) (tid : String) (ex : Int)
    (out : List LocationRecord) (h : transform rows tid ex = some out) :
    ∀ rec ∈ out, rec.tst = rec.timestamp_nanos.tdiv 1000000000 ∧
      (0 ≤ rec.timestamp_nanos →
        rec.tst = rec.timestamp_nanos / 1000000000) := by
  intro rec hrec
  obtain ⟨raw, _, _, _, hb⟩ := transform_mem h rec hrec
  obtain ⟨_, _, hts, htst, _⟩ := buildRecord_some hb
  have h1 : raw.timestamp = some rec.timestamp_nanos := hts
  have h2 : raw.timestamp.map (fun n => n.tdiv 1000000000) = some rec.tst := htst
  rw [h1, Option.map_some'] at h2
  have heq : rec.tst = rec.timestamp_nanos.tdiv 1000000000 :=
    (Option.some.inj h2).symm
  refine ⟨heq, fun hpos => ?_⟩
  rw [heq, Int.tdiv_eq_ediv hpos (by omega)]

theorem claim6_witness :
    recSample.tst = recSample.timestamp_nanos.tdiv 1000000000 ∧
      recSample.tst = recSample.timestamp_nanos / 1000000000 :=
  ⟨(claim6_tst_truncdiv [fixA, fixB] "tt" 1 [recSample] rfl recSample
      (List.mem_cons_self _ _)).1,
   (claim6_tst_truncdiv [fixA, fixB] "tt" 1 [recSample] rfl recSample
      (List.mem_cons_self _ _)).2 (by decide)⟩

/-- C7: on a record stream with non-decreasing timestamps the writer
never revisits a bucket key after flushing it: the flushed file names
are pairwise distinct, and each flushed file receives all serialized
lines of the records with its bucket key in one single write. -/
theorem claim7_single_write (records : List LocationRecord)
    (hs : records.Pairwise (fun a b => a.timestamp_nanos ≤ b.timestamp_nanos)) :
    ((processRecords records).writes.map Prod.fst).Nodup ∧
    ∀ p ∈ (processRecords records).writes,
      p.2 = (records.filter (fun r => fileOfRec r = p.1)).map
        create_owntrack_line := by
  have hpw := runs_keys_pairwise_ne records hs
  rw [processRecords_spec]
  constructor
  · show (((runsOf records).dropLast.map
      (fun u => (keyOf u, u.map create_owntrack_line))).map Prod.fst).Nodup
    rw [List.map_map]
    have heq : (Prod.fst ∘ fun u : List LocationRecord =>
        (keyOf u, u.map create_owntrack_line)) = keyOf := rfl
    rw [heq]
    have hnodup : ((runsOf records).map keyOf).Nodup := List.pairwise_map.mpr hpw
    exact List.Nodup.sublist (List.Sublist.map keyOf (List.dropLast_sublist _))
      hnodup
  · intro p hp
    obtain ⟨u, hu, hpu⟩ := List.mem_map.mp hp
    have hu' : u ∈ runsOf records := (List.dropLast_sublist _).subset hu
    have hfil := flatten_filter_key (runsOf records)
      (runsOf_uniform_mem records) hpw u hu'
    rw [runsOf_flatten] at hfil
    rw [← hpu]
    show u.map create_owntrack_line = _
    rw [hfil]

def recFeb : LocationRecord :=
  { record_type := "location", tid := "tt", tst := 1423570320,
    timestamp_nanos := 1423570320000000000, lat := 42, lon := 64,
    acc := none, alt := none, vac := none }

theorem claim7_witness :
    ((processRecords [testRecord, recFeb]).writes.map Prod.fst).Nodup :=
  (claim7_single_write [testRecord, recFeb] (by decide)).1

/-- C8 counterexample: a raw row with a present latitude but a null
longitude passes both transformer filters, yet building the
`LocationRecord` from it fails (the Rust code panics on the `unwrap` of
the longitude extraction). -/
def badFix : RawFix :=
  { deviceTag := none, latitudeE7 := some 420000000, longitudeE7 := none,
    timestamp := some 1420978320000000000, accuracy := none,
    altitude := none, verticalAccuracy := none }

theorem claim8_counterexample :
    exclKeep 1 (normalize badFix) = true ∧
      validKeep (normalize badFix) = true ∧
      buildRecord "tt" (normalize badFix) = none := by
  decide

/-- C8 amended: record construction cannot fail for a row that passed
the validity filter, provided the row also satisfies the input contract
for the fields the filters do not check: a present longitude and a
present (parseable) timestamp. -/
theorem claim8_build_total (raw : RawFix) (tid : String)
    (hval : validKeep (normalize raw) = true)
    (hlon : raw.longitudeE7.isSome = true)
    (hts : raw.timestamp.isSome = true) :
    (buildRecord tid (normalize raw)).isSome = true := by
  rcases hl : raw.latitudeE7 with _ | l
  · unfold validKeep at hval
    rw [show (normalize raw).lat =
      raw.latitudeE7.map (fun v => (v : Rat) / 10000000) from rfl, hl] at hval
    simp at hval
  · rcases hg : raw.longitudeE7 with _ | g
    · rw [hg] at hlon
      simp at hlon
    · rcases ht : raw.timestamp with _ | ts
      · rw [ht] at hts
        simp at hts
      · simp [buildRecord, normalize, hl, hg, ht]

theorem claim8_witness :
    (buildRecord "tt" (normalize fixB)).isSome = true :=
  claim8_build_total fixB "tt" (by decide) (by decide) (by decide)

/-- C10: when the transformed record stream is empty, the writer
performs no file writes at all and the reported path is the empty
string. -/
theorem claim10_empty_stream (rows : List RawFix) (tid : String) (ex : Int)
    (out : List LocationRecord) (h : transform rows tid ex = some out)
    (hout : out = []) :
    (processRecords out).writes = [] ∧ (processRecords out).active_file = "" := by
  subst hout
  exact ⟨rfl, rfl⟩

theorem claim10_witness :
    (processRecords []).writes = [] ∧ (processRecords []).active_file = "" :=
  claim10_empty_stream [] "tt" 1 [] rfl rfl

end OwnTracks
